import Mathlib

set_option linter.unusedSectionVars false

/-!
Verification of the data scaling / normalization notebooks.

The repository consists of two notebooks.  The only self-contained
algorithmic fragment is the quantile-normalization cell:

  reference_distribution = np.mean(rankdata(data, axis=0), axis=1)
  sorted_data = np.sort(data, axis=0)
  quantile_normalized_data = np.zeros_like(sorted_data)
  for i in range(sorted_data.shape[1]):
      quantile_normalized_data[:, i] = reference_distribution[i]
  quantile_normalized_data = np.sort(quantile_normalized_data, axis=0)
  quantile_normalized_data = np.flip(quantile_normalized_data, axis=0)

We embed tables row-major as `List (List α)`.  Machine floats are
modelled by exact rationals; `np.zeros_like` on an integer array keeps
the integer element type, so the assignment of a float scalar into such
an array truncates toward zero (`truncInt`).  Failure points of the
numpy pipeline (ragged input rejected by `np.array`, a 1-D empty array
rejected by `np.mean(..., axis=1)`, and an out-of-bounds index into
`reference_distribution`) are modelled by `Option`.

The decimal-scaling and mean-subtraction cells are embedded directly.
-/

/-- Number of columns of a row-major table: length of its first row
(`shape[1]` of a rectangular 2-D array). -/
def ncols {α : Type} (m : List (List α)) : ℕ := (m.headD []).length

/-- A table is rectangular when every row has the first row's length
(`np.array` rejects ragged nested lists). -/
def isRect {α : Type} (m : List (List α)) : Bool :=
  m.all (fun row => row.length == ncols m)

/-- Arithmetic mean of a list of rationals, as computed by `np.mean`
along one axis. -/
def listMean (l : List ℚ) : ℚ := l.sum / l.length

section QuantileNormalization

variable {α : Type} [LinearOrder α] [Inhabited α] [Zero α]

/-- Column `j` of a row-major table. -/
def matCol (m : List (List α)) (j : ℕ) : List α :=
  m.map (fun row => row.getD j default)

/-- Rank of `x` within `col` under `scipy.stats.rankdata`'s default
average method: all entries strictly below `x` contribute 1, and the
tie group of `x` occupies the next `countP (= x)` positions, whose
1-based average is `countP (< x) + (countP (= x) + 1) / 2`. -/
def rankIn (col : List α) (x : α) : ℚ :=
  (col.countP (fun y => decide (y < x)) : ℚ) +
    ((col.countP (fun y => decide (y = x)) : ℚ) + 1) / 2

/-- Embedding of `rankdata(data, axis=0)`: replace every entry by its rank within
its own column (ranks are floats, i.e. rationals here). -/
def rankdata0 (data : List (List α)) : List (List ℚ) :=
  data.map (fun row =>
    (List.range row.length).map (fun j => rankIn (matCol data j) (row.getD j default)))

/-- Embedding of `reference_distribution = np.mean(rankdata(data,
axis=0), axis=1)`: the per-row mean of the per-column ranks. -/
def reference_distribution (data : List (List α)) : List ℚ :=
  (rankdata0 data).map listMean

/-- Embedding of `np.sort(m, axis=0)`: sort every column ascending, keeping the
row-major representation. -/
def sortCols (m : List (List α)) : List (List α) :=
  (List.range m.length).map (fun p =>
    (List.range (ncols m)).map (fun j =>
      ((matCol m j).insertionSort (· ≤ ·)).getD p default))

/-- Embedding of the slice assignment `m[:, i] = v`: overwrite column
`i` with the scalar `v`. -/
def setCol (m : List (List α)) (i : ℕ) (v : α) : List (List α) :=
  m.map (fun row => row.set i v)

/-- Embedding of `np.zeros_like(m)`: a table of zeros of the same shape and element
type as `m`. -/
def zerosLike (m : List (List α)) : List (List α) :=
  m.map (fun row => row.map (fun _ => (0 : α)))

/-- The assignment loop `for i in L: m[:, i] = store(ref[i])`.  Reading
`reference_distribution[i]` out of bounds raises `IndexError`, modelled
by `none`; `store` is the cast performed by storing a float scalar into
an array of element type `α`. -/
def fillCols (store : ℚ → α) (ref : List ℚ) : List ℕ → List (List α) → Option (List (List α))
  | [], m => some m
  | i :: is, m =>
    if i < ref.length then
      fillCols store ref is (setCol m i (store (ref.getD i 0)))
    else none

/-- The whole quantile-normalization cell.  `np.array` rejects ragged
input; `np.mean(..., axis=1)` rejects the 1-D array arising from an
empty list; then the reference distribution is built, each column is
sorted, a zero table of the same shape and dtype is filled column by
column with `reference_distribution[i]`, and finally the columns are
sorted again and flipped along axis 0. -/
def quantile_normalized_data (store : ℚ → α) (data : List (List α)) :
    Option (List (List α)) :=
  if isRect data then
    if data.isEmpty then none
    else
      let ref := reference_distribution data
      let sorted := sortCols data
      match fillCols store ref (List.range (ncols sorted)) (zerosLike sorted) with
      | some filled => some ((sortCols filled).reverse)
      | none => none
  else none

end QuantileNormalization

/-- Storing a float into an integer array truncates toward zero (the C
cast numpy applies). -/
def truncInt (q : ℚ) : ℤ := q.num.tdiv q.den

/-- The notebook's pipeline on its integer input array. -/
def quantile_normalized_dataZ : List (List ℤ) → Option (List (List ℤ)) :=
  quantile_normalized_data truncInt

/-- The same pipeline on a float (here: rational) input array, where the
stored reference values are kept exactly. -/
def quantile_normalized_dataQ : List (List ℚ) → Option (List (List ℚ)) :=
  quantile_normalized_data id

/-- The average-rank convention stated independently of the code: the
rank of `x` is the average of its least possible 1-based rank
(`1 + countP (< x)`) and its greatest possible 1-based rank
(`countP (≤ x)`) within the column. -/
def avgRank {α : Type} [LinearOrder α] (col : List α) (x : α) : ℚ :=
  (((col.countP (fun y => decide (y < x)) : ℚ) + 1) +
    (col.countP (fun y => decide (y ≤ x)) : ℚ)) / 2

/-- ColumnRemapper as the specification describes it: for each column,
sort the values ascending, hand the value at sorted position `k` the
`k`-th reference-distribution value, and restore the column's original
row ordering (each entry looks up the sorted position of its own
value). -/
def spec_column_remap (data : List (List ℤ)) : List (List ℤ) :=
  data.map (fun row =>
    (List.range row.length).map (fun j =>
      truncInt ((reference_distribution data).getD
        (((matCol data j).insertionSort (· ≤ ·)).indexOf (row.getD j default)) 0)))

/-- Decimal scaling, from the scaling notebook: number of decimal
digits of the dataset's maximum (`len(str(max(data)))` for the positive
integer datasets the cell targets). -/
def max_digits (data : List ℕ) : ℕ :=
  (Nat.digits 10 (data.foldr max 0)).length

/-- Embedding of `scale_factor = 10 ** max_digits`. -/
def scale_factor (data : List ℕ) : ℕ := 10 ^ max_digits data

/-- Embedding of `scaled_data = [x / scale_factor for x in data]`. -/
def scaled_data (data : List ℕ) : List ℚ :=
  data.map (fun x : ℕ => (x : ℚ) / (scale_factor data : ℚ))

/-- Mean subtraction, from the normalization notebook:
`normalized_data = data - np.mean(data)`. -/
def normalized_data (data : List ℚ) : List ℚ :=
  data.map (fun x => x - listMean data)

section RankLemmas

variable {α : Type} [LinearOrder α] [Inhabited α] [Zero α]

lemma countP_le_split (l : List α) (x : α) :
    l.countP (fun y => decide (y ≤ x)) =
      l.countP (fun y => decide (y < x)) + l.countP (fun y => decide (y = x)) := by
  induction l with
  | nil => simp
  | cons a t ih =>
    simp only [List.countP_cons, ih]
    rcases lt_trichotomy a x with h | h | h
    · simp [h, h.le, h.ne]
      omega
    · subst h
      simp
      omega
    · simp [not_le.mpr h, h.asymm, h.ne']

lemma rankIn_eq_avgRank (col : List α) (x : α) : rankIn col x = avgRank col x := by
  unfold rankIn avgRank
  rw [countP_le_split]
  push_cast
  ring

lemma reference_distribution_length (data : List (List α)) :
    (reference_distribution data).length = data.length := by
  simp [reference_distribution, rankdata0]

end RankLemmas

lemma le_foldr_max (data : List ℕ) : ∀ x ∈ data, x ≤ data.foldr max 0 := by
  induction data with
  | nil => simp
  | cons a t ih =>
    intro x hx
    rcases List.mem_cons.mp hx with rfl | hx
    · exact le_max_left _ _
    · exact (ih x hx).trans (le_max_right _ _)

lemma sum_map_sub (l : List ℚ) (m : ℚ) :
    (l.map (fun x => x - m)).sum = l.sum - l.length * m := by
  induction l with
  | nil => simp
  | cons a t ih =>
    simp only [List.map_cons, List.sum_cons, ih, List.length_cons]
    push_cast
    ring

/-- Claim C4: on a non-empty dataset of positive integers, decimal scaling by
`10 ^ max_digits` lands every value in the half-open interval `(0, 1]`. -/
theorem decimal_scaling_unit_interval (data : List ℕ) (hne : data ≠ [])
    (hpos : ∀ x ∈ data, 0 < x) :
    ∀ y ∈ scaled_data data, 0 < y ∧ y ≤ 1 := by
  intro y hy
  unfold scaled_data at hy
  obtain ⟨x, hx, rfl⟩ := List.mem_map.mp hy
  have hsf : (0 : ℚ) < (scale_factor data : ℚ) := by
    have : 0 < scale_factor data := pow_pos (by norm_num) _
    exact_mod_cast this
  refine ⟨div_pos ?_ hsf, ?_⟩
  · exact_mod_cast hpos x hx
  · rw [div_le_one hsf]
    have h1 : x ≤ data.foldr max 0 := le_foldr_max data x hx
    have h2 : data.foldr max 0 < 10 ^ max_digits data :=
      Nat.lt_base_pow_length_digits (by norm_num)
    have h3 : x ≤ scale_factor data := (h1.trans_lt h2).le
    exact_mod_cast h3

/-- Witness for C4: the scaling cell's own dataset `[10, 100, 1000, 10000,
100000]` satisfies the hypotheses and the conclusion. -/
theorem decimal_scaling_unit_interval_witness :
    0 < ((10 : ℕ) : ℚ) / (scale_factor [10, 100, 1000, 10000, 100000] : ℚ) ∧
      ((10 : ℕ) : ℚ) / (scale_factor [10, 100, 1000, 10000, 100000] : ℚ) ≤ 1 :=
  decimal_scaling_unit_interval [10, 100, 1000, 10000, 100000]
    (by decide) (by decide) _ (List.mem_map.mpr ⟨10, by decide, rfl⟩)

/-- Claim C5: subtracting the mean yields a sequence whose exact rational mean
is zero, for every non-empty input sequence. -/
theorem mean_subtraction_mean_zero (data : List ℚ) (hne : data ≠ []) :
    listMean (normalized_data data) = 0 := by
  have hn : (data.length : ℚ) ≠ 0 := by
    have : data.length ≠ 0 := fun h => hne (List.length_eq_zero.mp h)
    exact_mod_cast this
  simp only [listMean, normalized_data, sum_map_sub, List.length_map]
  rw [mul_comm, div_mul_cancel₀ _ hn, sub_self, zero_div]

/-- Witness for C5: the notebook's dataset `[1, 2, 3, 4, 5]`. -/
theorem mean_subtraction_mean_zero_witness :
    listMean (normalized_data [1, 2, 3, 4, 5]) = 0 :=
  mean_subtraction_mean_zero [1, 2, 3, 4, 5] (by decide)

section PipelineLemmas

variable {α : Type} [LinearOrder α] [Inhabited α] [Zero α]

lemma getD_set {β : Type} (row : List β) (i j : ℕ) (v d : β) :
    (row.set i v).getD j d = if i = j ∧ j < row.length then v else row.getD j d := by
  rcases lt_or_ge j row.length with hj | hj
  · rw [List.getD_eq_getElem _ _ (by simpa using hj), List.getElem_set]
    by_cases hij : i = j
    · simp [hij, hj]
    · rw [List.getD_eq_getElem _ _ hj]
      simp [hij]
  · rw [List.getD_eq_default _ _ (by simpa using hj), List.getD_eq_default _ _ hj]
    have : ¬ (i = j ∧ j < row.length) := by omega
    rw [if_neg this]

lemma setCol_getD (m : List (List α)) (i : ℕ) (v : α) (p : ℕ) :
    (setCol m i v).getD p [] = (m.getD p []).set i v := by
  rcases lt_or_ge p m.length with hp | hp
  · rw [List.getD_eq_getElem _ _ (by simpa [setCol] using hp),
      List.getD_eq_getElem _ _ hp]
    simp [setCol]
  · rw [List.getD_eq_default _ _ (by simpa [setCol] using hp),
      List.getD_eq_default _ _ hp, List.set_nil]

lemma setCol_length (m : List (List α)) (i : ℕ) (v : α) :
    (setCol m i v).length = m.length := by
  simp [setCol]

lemma fillCols_eq_none_iff (store : ℚ → α) (ref : List ℚ) :
    ∀ (L : List ℕ) (m : List (List α)),
      fillCols store ref L m = none ↔ ∃ i ∈ L, ref.length ≤ i := by
  intro L
  induction L with
  | nil => intro m; simp [fillCols]
  | cons i is ih =>
    intro m
    rw [fillCols]
    split
    · rename_i hi
      rw [ih]
      constructor
      · rintro ⟨x, hx, hlen⟩
        exact ⟨x, List.mem_cons_of_mem _ hx, hlen⟩
      · rintro ⟨x, hx, hlen⟩
        rcases List.mem_cons.mp hx with rfl | hx
        · omega
        · exact ⟨x, hx, hlen⟩
    · rename_i hi
      exact iff_of_true rfl ⟨i, List.mem_cons_self i is, by omega⟩

lemma fillCols_some_length (store : ℚ → α) (ref : List ℚ) :
    ∀ (L : List ℕ) (m m' : List (List α)), fillCols store ref L m = some m' →
      m'.length = m.length := by
  intro L
  induction L with
  | nil =>
    intro m m' h
    rw [fillCols] at h
    cases h
    rfl
  | cons i is ih =>
    intro m m' h
    rw [fillCols] at h
    split at h
    · exact (ih _ _ h).trans (setCol_length _ _ _)
    · cases h

lemma fillCols_some_rowlen (store : ℚ → α) (ref : List ℚ) :
    ∀ (L : List ℕ) (m m' : List (List α)), fillCols store ref L m = some m' →
      ∀ p, (m'.getD p []).length = (m.getD p []).length := by
  intro L
  induction L with
  | nil =>
    intro m m' h p
    rw [fillCols] at h
    cases h
    rfl
  | cons i is ih =>
    intro m m' h p
    rw [fillCols] at h
    split at h
    · rw [ih _ _ h p, setCol_getD, List.length_set]
    · cases h

lemma fillCols_entry (store : ℚ → α) (ref : List ℚ) :
    ∀ (L : List ℕ) (m m' : List (List α)), fillCols store ref L m = some m' →
      ∀ p j, (m'.getD p []).getD j default =
        if j ∈ L ∧ j < (m.getD p []).length then store (ref.getD j 0)
        else (m.getD p []).getD j default := by
  intro L
  induction L with
  | nil =>
    intro m m' h p j
    rw [fillCols] at h
    cases h
    simp
  | cons i is ih =>
    intro m m' h p j
    rw [fillCols] at h
    split at h
    · have hthis := ih _ _ h p j
      rw [setCol_getD, List.length_set, getD_set] at hthis
      rw [hthis]
      by_cases h3 : j < (m.getD p []).length
      · by_cases h1 : j ∈ is
        · rw [if_pos ⟨h1, h3⟩, if_pos ⟨List.mem_cons_of_mem _ h1, h3⟩]
        · rw [if_neg (fun hc => h1 hc.1)]
          by_cases h2 : i = j
          · subst h2
            rw [if_pos ⟨rfl, h3⟩, if_pos ⟨List.mem_cons_self _ _, h3⟩]
          · rw [if_neg (fun hc => h2 hc.1)]
            rw [if_neg ?_]
            rintro ⟨hc1, hc2⟩
            rcases List.mem_cons.mp hc1 with h' | h'
            · exact h2 h'.symm
            · exact h1 h'
      · rw [if_neg (fun hc => h3 hc.2), if_neg (fun hc => h3 hc.2),
          if_neg (fun hc => h3 hc.2)]
    · cases h

end PipelineLemmas

section ShapeLemmas

variable {α : Type} [LinearOrder α] [Inhabited α] [Zero α]

lemma map_const_range {β : Type} (n : ℕ) (c : β) :
    (List.range n).map (fun _ => c) = List.replicate n c := by
  rw [List.map_const', List.length_range]

lemma eq_range_map {β : Type} [Inhabited β] (w : List β) (n : ℕ) (f : ℕ → β)
    (hlen : w.length = n) (hget : ∀ j, j < n → w.getD j default = f j) :
    w = (List.range n).map f := by
  apply List.ext_getElem (by simp [hlen])
  intro i h1 h2
  rw [List.getElem_map, List.getElem_range]
  rw [← hget i (by omega), List.getD_eq_getElem _ _ h1]

lemma getD_map_of_lt {β γ : Type} (f : β → γ) (l : List β) (p : ℕ)
    (hp : p < l.length) (d : γ) (d' : β) :
    (l.map f).getD p d = f (l.getD p d') := by
  rw [List.getD_eq_getElem _ _ (by simpa using hp),
    List.getD_eq_getElem _ _ hp, List.getElem_map]

lemma sorted_le_replicate (n : ℕ) (a : α) :
    List.Sorted (· ≤ ·) (List.replicate n a) := by
  induction n with
  | zero => simp
  | succ n ih =>
    rw [List.replicate_succ]
    exact List.sorted_cons.mpr
      ⟨fun b hb => le_of_eq (List.eq_of_mem_replicate hb).symm, ih⟩

lemma matCol_replicate (r : ℕ) (w : List α) (j : ℕ) :
    matCol (List.replicate r w) j = List.replicate r (w.getD j default) := by
  simp [matCol, List.map_replicate]

lemma sortCols_replicate (r : ℕ) (w : List α) :
    sortCols (List.replicate r w) = List.replicate r w := by
  cases r with
  | zero => simp [sortCols]
  | succ n =>
    have hnc : ncols (List.replicate (n + 1) w) = w.length := by
      rw [List.replicate_succ]
      simp [ncols]
    unfold sortCols
    rw [hnc, List.length_replicate]
    have hrow : ∀ p ∈ List.range (n + 1),
        (List.range w.length).map (fun j =>
          ((matCol (List.replicate (n + 1) w) j).insertionSort (· ≤ ·)).getD p default) = w := by
      intro p hp
      have hp' : p < n + 1 := List.mem_range.mp hp
      have hmap : ∀ j ∈ List.range w.length,
          ((matCol (List.replicate (n + 1) w) j).insertionSort (· ≤ ·)).getD p default =
            w.getD j default := by
        intro j hj
        rw [matCol_replicate, (sorted_le_replicate _ _).insertionSort_eq,
          List.getD_eq_getElem _ _ (by simpa using hp'), List.getElem_replicate]
      rw [List.map_congr_left hmap]
      exact (eq_range_map w w.length (fun j => w.getD j default) rfl
        (fun j hj => rfl)).symm
    rw [List.map_congr_left hrow, map_const_range]

lemma sortCols_length (m : List (List α)) : (sortCols m).length = m.length := by
  simp [sortCols]

lemma ncols_sortCols (data : List (List α)) (hne : data ≠ []) :
    ncols (sortCols data) = ncols data := by
  cases data with
  | nil => exact absurd rfl hne
  | cons r t =>
    simp [sortCols, ncols, List.range_succ_eq_map]

lemma zerosLike_sortCols (data : List (List α)) :
    zerosLike (sortCols data) =
      List.replicate data.length (List.replicate (ncols data) (0 : α)) := by
  unfold zerosLike sortCols
  rw [List.map_map]
  have hrow : ∀ p ∈ List.range data.length,
      ((fun row => row.map (fun _ => (0 : α))) ∘ fun p =>
        (List.range (ncols data)).map (fun j =>
          ((matCol data j).insertionSort (· ≤ ·)).getD p default)) p =
        List.replicate (ncols data) (0 : α) := by
    intro p hp
    simp only [Function.comp, List.map_map]
    exact map_const_range _ _
  rw [List.map_congr_left hrow, map_const_range]

end ShapeLemmas

section MasterLemmas

variable {α : Type} [LinearOrder α] [Inhabited α] [Zero α]

lemma fillCols_replicate_zeros (store : ℚ → α) (ref : List ℚ) (r c : ℕ)
    (filled : List (List α))
    (h : fillCols store ref (List.range c)
      (List.replicate r (List.replicate c (0 : α))) = some filled) :
    filled = List.replicate r
      ((List.range c).map (fun j => store (ref.getD j 0))) := by
  have hzget : ∀ p, p < r →
      (List.replicate r (List.replicate c (0 : α))).getD p [] =
        List.replicate c (0 : α) := by
    intro p hp
    rw [List.getD_eq_getElem _ _ (by simpa using hp), List.getElem_replicate]
  have hlen : filled.length = r := by
    rw [fillCols_some_length store ref _ _ _ h, List.length_replicate]
  refine List.eq_replicate_iff.mpr ⟨hlen, ?_⟩
  intro b hb
  obtain ⟨p, hp, rfl⟩ := List.mem_iff_getElem.mp hb
  have hpr : p < r := hlen ▸ hp
  have hrowlen : (filled.getD p []).length = c := by
    rw [fillCols_some_rowlen store ref _ _ _ h p, hzget p hpr,
      List.length_replicate]
  have hget : ∀ j, j < c →
      (filled.getD p []).getD j default = store (ref.getD j 0) := by
    intro j hj
    rw [fillCols_entry store ref _ _ _ h p j, hzget p hpr,
      if_pos ⟨List.mem_range.mpr hj, by simpa using hj⟩]
  have hw := eq_range_map (filled.getD p []) c
    (fun j => store (ref.getD j 0)) hrowlen hget
  rw [List.getD_eq_getElem _ _ hp] at hw
  exact hw

lemma quant_some_eq (store : ℚ → α) (data out : List (List α))
    (h : quantile_normalized_data store data = some out) :
    out = List.replicate data.length ((List.range (ncols data)).map
      (fun j => store ((reference_distribution data).getD j 0))) := by
  unfold quantile_normalized_data at h
  by_cases hrect : isRect data = true
  · rw [if_pos hrect] at h
    by_cases hemp : data.isEmpty = true
    · rw [if_pos hemp] at h
      exact Option.noConfusion h
    · rw [if_neg hemp] at h
      have hne : data ≠ [] := fun hd => hemp (List.isEmpty_iff.mpr hd)
      dsimp only at h
      rw [ncols_sortCols data hne, zerosLike_sortCols] at h
      cases hfill : fillCols store (reference_distribution data)
          (List.range (ncols data))
          (List.replicate data.length (List.replicate (ncols data) (0 : α))) with
      | none =>
        rw [hfill] at h
        exact Option.noConfusion h
      | some filled =>
        rw [hfill] at h
        dsimp only at h
        have hfr := fillCols_replicate_zeros store _ _ _ _ hfill
        rw [hfr, sortCols_replicate, List.reverse_replicate] at h
        exact (Option.some.inj h).symm
  · rw [if_neg hrect] at h
    exact Option.noConfusion h

lemma quant_none_of_degenerate (store : ℚ → α) (data : List (List α))
    (h : data = [] ∨ isRect data = false) :
    quantile_normalized_data store data = none := by
  rcases h with rfl | h
  · simp [quantile_normalized_data]
  · simp [quantile_normalized_data, h]

lemma quant_none_of_wide (store : ℚ → α) (data : List (List α))
    (hrect : isRect data = true) (hne : data ≠ [])
    (hwide : data.length < ncols data) :
    quantile_normalized_data store data = none := by
  have hemp : ¬ data.isEmpty = true := fun hd => hne (List.isEmpty_iff.mp hd)
  unfold quantile_normalized_data
  rw [if_pos hrect, if_neg hemp]
  dsimp only
  rw [ncols_sortCols data hne]
  have hfill : fillCols store (reference_distribution data)
      (List.range (ncols data)) (zerosLike (sortCols data)) = none := by
    rw [fillCols_eq_none_iff]
    exact ⟨data.length, List.mem_range.mpr hwide,
      by rw [reference_distribution_length]⟩
  rw [hfill]

end MasterLemmas

/-- Claim C1: on the notebook's input `[[10,20,30],[40,50,60],[70,80,90]]` the
quantile-normalization cell returns exactly the printed result
`[[1,2,3],[1,2,3],[1,2,3]]`, every column read top to bottom being
`[1,2,3]`. -/
theorem quantile_example_matches_printed_output :
    quantile_normalized_dataZ [[10, 20, 30], [40, 50, 60], [70, 80, 90]] =
      some [[1, 2, 3], [1, 2, 3], [1, 2, 3]] := by
  norm_num [quantile_normalized_dataZ, quantile_normalized_data, isRect, ncols,
    reference_distribution, rankdata0, rankIn, matCol, listMean, sortCols,
    setCol, zerosLike, fillCols, truncInt, List.range_succ, List.countP_cons,
    List.countP_nil, List.insertionSort, List.orderedInsert]

/-- Claim C2: on the 2-by-1 input `[[20],[10]]` the code fills the column with
the constant `reference_distribution[0] = 2` and the final sort and flip
do not restore the column's original ordering, yielding `[[2],[2]]`,
whereas the documented remapping (sort, assign reference values by rank
position, undo the column's sort permutation) yields `[[1],[2]]`. -/
theorem quantile_code_vs_spec_remap_on_2x1 :
    quantile_normalized_dataZ [[20], [10]] = some [[2], [2]] ∧
      spec_column_remap [[20], [10]] = [[1], [2]] := by
  constructor
  · norm_num [quantile_normalized_dataZ, quantile_normalized_data, isRect,
      ncols, reference_distribution, rankdata0, rankIn, matCol, listMean,
      sortCols, setCol, zerosLike, fillCols, truncInt, List.range_succ,
      List.countP_cons, List.countP_nil, List.insertionSort,
      List.orderedInsert]
  · norm_num [spec_column_remap, reference_distribution, rankdata0, rankIn,
      matCol, listMean, truncInt, Int.tdiv, List.range_succ, List.countP_cons,
      List.countP_nil, List.insertionSort, List.orderedInsert,
      List.indexOf_cons, List.indexOf_nil]

/-- Claim C3: on a non-empty rectangular table the RankAggregator stage
(`reference_distribution`) yields one value per row, and the value at
row `p` is the mean over the columns of the rank of that row's entry in
its own column, ranks following the average-rank tie convention. -/
theorem rank_aggregator_spec {α : Type} [LinearOrder α] [Inhabited α] [Zero α]
    (data : List (List α)) (c : ℕ) (hne : data ≠ [])
    (hrect : ∀ row ∈ data, row.length = c) :
    (reference_distribution data).length = data.length ∧
      ∀ p, p < data.length →
        (reference_distribution data).getD p 0 =
          ((List.range c).map (fun j =>
            avgRank (matCol data j) ((data.getD p []).getD j default))).sum / c := by
  refine ⟨reference_distribution_length data, ?_⟩
  intro p hp
  have hp2 : p < (rankdata0 data).length := by
    simpa [rankdata0] using hp
  unfold reference_distribution
  rw [getD_map_of_lt listMean (rankdata0 data) p hp2 0 []]
  have hrow : (rankdata0 data).getD p [] =
      (List.range (data.getD p []).length).map (fun j =>
        rankIn (matCol data j) ((data.getD p []).getD j default)) := by
    simp only [rankdata0]
    exact getD_map_of_lt _ data p hp [] []
  rw [hrow]
  have hrowlen : (data.getD p []).length = c := by
    rw [List.getD_eq_getElem _ _ hp]
    exact hrect _ (List.getElem_mem hp)
  rw [hrowlen]
  unfold listMean
  rw [List.length_map, List.length_range]
  congr 1
  exact congrArg List.sum
    (List.map_congr_left fun j hj => rankIn_eq_avgRank _ _)

/-- Witness for C3: the 2-by-2 table `[[3,1],[1,2]]`. -/
theorem rank_aggregator_spec_witness :
    (reference_distribution [[(3 : ℤ), 1], [1, 2]]).length =
        [[(3 : ℤ), 1], [1, 2]].length ∧
      ∀ p, p < [[(3 : ℤ), 1], [1, 2]].length →
        (reference_distribution [[(3 : ℤ), 1], [1, 2]]).getD p 0 =
          ((List.range 2).map (fun j =>
            avgRank (matCol [[(3 : ℤ), 1], [1, 2]] j)
              (([[(3 : ℤ), 1], [1, 2]].getD p []).getD j default))).sum / 2 :=
  rank_aggregator_spec [[(3 : ℤ), 1], [1, 2]] 2 (by decide) (by decide)

/-- Claim C6: whenever the quantile-normalization cell completes, its output
has exactly the input's row count and column count. -/
theorem quantile_preserves_shape {α : Type} [LinearOrder α] [Inhabited α]
    [Zero α] (store : ℚ → α) (data out : List (List α))
    (h : quantile_normalized_data store data = some out) :
    out.length = data.length ∧ ∀ row ∈ out, row.length = ncols data := by
  have he := quant_some_eq store data out h
  subst he
  refine ⟨by simp, ?_⟩
  intro row hrow
  rw [List.eq_of_mem_replicate hrow]
  simp

/-- Witness for C6: the 1-by-1 table `[[5]]`, normalized to `[[1]]`. -/
theorem quantile_preserves_shape_witness :
    ([[(1 : ℤ)]] : List (List ℤ)).length = ([[(5 : ℤ)]] : List (List ℤ)).length ∧
      ∀ row ∈ ([[(1 : ℤ)]] : List (List ℤ)), row.length = ncols [[(5 : ℤ)]] :=
  quantile_preserves_shape truncInt [[(5 : ℤ)]] [[1]]
    (by norm_num [quantile_normalized_data, isRect, ncols,
      reference_distribution, rankdata0, rankIn, matCol, listMean, sortCols,
      setCol, zerosLike, fillCols, truncInt, List.range_succ,
      List.countP_cons, List.countP_nil, List.insertionSort,
      List.orderedInsert])

/-- Claim C7: the pipeline rejects (returns no table for) every empty input
and every ragged input. -/
theorem quantile_rejects_empty_or_ragged {α : Type} [LinearOrder α]
    [Inhabited α] [Zero α] (store : ℚ → α) (data : List (List α))
    (h : data = [] ∨ isRect data = false) :
    quantile_normalized_data store data = none :=
  quant_none_of_degenerate store data h

/-- Witness for C7: the ragged table `[[1,2],[3]]` is rejected. -/
theorem quantile_rejects_empty_or_ragged_witness :
    quantile_normalized_data truncInt [[(1 : ℤ), 2], [3]] = none :=
  quantile_rejects_empty_or_ragged truncInt [[(1 : ℤ), 2], [3]]
    (Or.inr (by decide))

/-- Claim C8: whenever the pipeline completes on a float table, every output
column `i` is constant, all of its entries being the `i`-th entry of the
reference distribution, whatever the ordering of the input column. -/
theorem quantile_output_columns_constant (data out : List (List ℚ))
    (h : quantile_normalized_dataQ data = some out) :
    ∀ row ∈ out, ∀ i, i < ncols data →
      row.getD i 0 = (reference_distribution data).getD i 0 := by
  have he := quant_some_eq id data out h
  subst he
  intro row hrow i hi
  rw [List.eq_of_mem_replicate hrow,
    List.getD_eq_getElem _ _ (by simpa using hi), List.getElem_map,
    List.getElem_range]
  rfl

/-- Witness for C8: the column-unsorted 2-by-1 float table `[[3],[1]]`. -/
theorem quantile_output_columns_constant_witness :
    ([(2 : ℚ)] : List ℚ).getD 0 0 =
      (reference_distribution [[(3 : ℚ)], [1]]).getD 0 0 :=
  quantile_output_columns_constant [[(3 : ℚ)], [1]] [[2], [2]]
    (by norm_num [quantile_normalized_dataQ, quantile_normalized_data, isRect,
      ncols, reference_distribution, rankdata0, rankIn, matCol, listMean,
      sortCols, setCol, zerosLike, fillCols, List.range_succ,
      List.countP_cons, List.countP_nil, List.insertionSort,
      List.orderedInsert])
    [2] (List.mem_cons_self _ _) 0 (by decide)

/-- Claim C9: on a non-empty rectangular table with more columns than rows the
pipeline fails: the reference distribution has one entry per row, yet
the assignment loop reads it at every column index. -/
theorem quantile_wide_input_index_error {α : Type} [LinearOrder α]
    [Inhabited α] [Zero α] (store : ℚ → α) (data : List (List α))
    (hrect : isRect data = true) (hne : data ≠ [])
    (hwide : data.length < ncols data) :
    quantile_normalized_data store data = none ∧
      (reference_distribution data).length = data.length :=
  ⟨quant_none_of_wide store data hrect hne hwide,
    reference_distribution_length data⟩

/-- Witness for C9: the 1-by-2 table `[[1,2]]`. -/
theorem quantile_wide_input_index_error_witness :
    quantile_normalized_data truncInt [[(1 : ℤ), 2]] = none ∧
      (reference_distribution [[(1 : ℤ), 2]]).length = [[(1 : ℤ), 2]].length :=
  quantile_wide_input_index_error truncInt [[(1 : ℤ), 2]]
    (by decide) (by decide) (by decide)

/-- Claim C10: whenever the pipeline completes on an integer table, the output
is an integer table whose column `j` holds the reference-distribution
entry `j` truncated toward zero, so fractional reference values are
silently truncated. -/
theorem quantile_int_truncates_reference (data out : List (List ℤ))
    (h : quantile_normalized_dataZ data = some out) :
    ∀ row ∈ out, ∀ j, j < ncols data →
      row.getD j 0 = truncInt ((reference_distribution data).getD j 0) := by
  have he := quant_some_eq truncInt data out h
  subst he
  intro row hrow j hj
  rw [List.eq_of_mem_replicate hrow,
    List.getD_eq_getElem _ _ (by simpa using hj), List.getElem_map,
    List.getElem_range]

/-- Witness for C10: on `[[3,1],[1,2]]` the reference distribution is the
fractional `[3/2, 3/2]`, and the integer output holds `truncInt (3/2) = 1`
everywhere. -/
theorem quantile_int_truncates_reference_witness :
    reference_distribution [[(3 : ℤ), 1], [1, 2]] = [3 / 2, 3 / 2] ∧
      ∀ row ∈ ([[(1 : ℤ), 1], [1, 1]] : List (List ℤ)), ∀ j,
        j < ncols [[(3 : ℤ), 1], [1, 2]] →
        row.getD j 0 =
          truncInt ((reference_distribution [[(3 : ℤ), 1], [1, 2]]).getD j 0) :=
  ⟨by norm_num [reference_distribution, rankdata0, rankIn, matCol, listMean,
      List.range_succ, List.countP_cons, List.countP_nil],
    quantile_int_truncates_reference [[(3 : ℤ), 1], [1, 2]] [[1, 1], [1, 1]]
      (by norm_num [quantile_normalized_dataZ, quantile_normalized_data,
        isRect, ncols, reference_distribution, rankdata0, rankIn, matCol,
        listMean, sortCols, setCol, zerosLike, fillCols, truncInt, Int.tdiv,
        List.range_succ, List.countP_cons, List.countP_nil,
        List.insertionSort, List.orderedInsert])⟩
